import Mathlib

/-!
Verification of the chonky-prefect-server repository: the recursive
directory walker (`recursivelyAddDirectoryContents`) and the Express
route handlers in `src/routes/index.ts`, shallowly embedded in Lean.

Paths are modelled as lists of segments (`List String`); joining a
directory path with an entry name appends one segment, mirroring
`path.join(dirPath, fileName)`.  A directory tree, as observed by
`fs.readdirSync`/`fs.statSync`, is modelled by the inductive `FsEntry`:
a directory carries its entry list (name plus entry, in raw enumeration
order), a regular file carries the metadata `statSync` reports, and
`other` stands for any entry that is neither a regular file nor a
directory (socket, FIFO, ...).
-/

namespace Chonky

/-- A node of a directory tree as the walker observes it. -/
inductive FsEntry : Type where
  | file (size : Nat) (birthtime : String) (mtime : String) : FsEntry
  | dir (entries : List (String × FsEntry)) : FsEntry
  | other : FsEntry

/-- The record type pushed onto `fileList` by the walker (`type file` in
the source). -/
structure FileRec : Type where
  path : List String
  size : Nat
  timeCreated : String
  timeModified : String
deriving DecidableEq, Repr

/-- Embedding of `recursivelyAddDirectoryContents(dirPath, fileSet, fileList)`.
`entries` is the result of `fs.readdirSync(dirPath)` paired with each
entry's `statSync` observation; the mutable `fileSet`/`fileList`
accumulators are threaded as explicit state (the set as a list of
paths).  For each entry: a directory is recursed into, a file not yet
in the set is added to the set and appended to the list, anything else
is skipped.  The extension allow-list check in the source is commented
out (`//&& extensions.has(...)`), so no extension condition appears
here. -/
def recursivelyAddDirectoryContents (dirPath : List String)
    (entries : List (String × FsEntry))
    (fileSet : List (List String)) (fileList : List FileRec) :
    List (List String) × List FileRec :=
  match entries with
  | [] => (fileSet, fileList)
  | (name, e) :: rest =>
    match e with
    | .dir sub =>
      let r := recursivelyAddDirectoryContents (dirPath ++ [name]) sub fileSet fileList
      recursivelyAddDirectoryContents dirPath rest r.1 r.2
    | .file sz bt mt =>
      if (dirPath ++ [name]) ∈ fileSet then
        recursivelyAddDirectoryContents dirPath rest fileSet fileList
      else
        recursivelyAddDirectoryContents dirPath rest ((dirPath ++ [name]) :: fileSet)
          (fileList ++ [⟨dirPath ++ [name], sz, bt, mt⟩])
    | .other => recursivelyAddDirectoryContents dirPath rest fileSet fileList
termination_by sizeOf entries
decreasing_by all_goals (simp_wf <;> omega)

/-- Paths of the regular-file nodes of a tree, in traversal order. -/
def filePaths (dirPath : List String) :
    List (String × FsEntry) → List (List String)
  | [] => []
  | (name, .dir sub) :: rest =>
      filePaths (dirPath ++ [name]) sub ++ filePaths dirPath rest
  | (name, .file _ _ _) :: rest => (dirPath ++ [name]) :: filePaths dirPath rest
  | (_, .other) :: rest => filePaths dirPath rest
termination_by entries => sizeOf entries
decreasing_by all_goals (simp_wf <;> omega)

/-- Paths of the directory nodes of a tree (the recursion targets). -/
def dirPaths (dirPath : List String) :
    List (String × FsEntry) → List (List String)
  | [] => []
  | (name, .dir sub) :: rest =>
      (dirPath ++ [name]) :: (dirPaths (dirPath ++ [name]) sub ++ dirPaths dirPath rest)
  | (_, .file _ _ _) :: rest => dirPaths dirPath rest
  | (_, .other) :: rest => dirPaths dirPath rest
termination_by entries => sizeOf entries
decreasing_by all_goals (simp_wf <;> omega)

/-- The records the walker would emit for a tree with no duplicate
paths, in traversal order. -/
def fileRecords (dirPath : List String) :
    List (String × FsEntry) → List FileRec
  | [] => []
  | (name, .dir sub) :: rest =>
      fileRecords (dirPath ++ [name]) sub ++ fileRecords dirPath rest
  | (name, .file sz bt mt) :: rest =>
      ⟨dirPath ++ [name], sz, bt, mt⟩ :: fileRecords dirPath rest
  | (_, .other) :: rest => fileRecords dirPath rest
termination_by entries => sizeOf entries
decreasing_by all_goals (simp_wf <;> omega)

/-- A tree is well formed when every directory's entry names are
pairwise distinct, as `fs.readdirSync` guarantees on a real
filesystem. -/
def wellFormed : List (String × FsEntry) → Bool
  | [] => true
  | (name, .dir sub) :: rest =>
      rest.all (fun p => name ≠ p.1) && wellFormed sub && wellFormed rest
  | (name, .file _ _ _) :: rest =>
      rest.all (fun p => name ≠ p.1) && wellFormed rest
  | (name, .other) :: rest =>
      rest.all (fun p => name ≠ p.1) && wellFormed rest
termination_by entries => sizeOf entries
decreasing_by all_goals (simp_wf <;> omega)

/-- Modelled from the spec: §4.1 "Supports an optional extension
allow-list predicate to restrict results (e.g., only video files); when
absent, all files qualify.  This must be a pluggable filter, not a
hardcoded condition."  The walker with a pluggable optional allow-list
predicate over the entry's file name, to be compared with
`recursivelyAddDirectoryContents`, whose source signature
`(dirPath, fileSet, fileList)` has no such parameter. -/
def walkWithPredicate (allowed : Option (String → Bool)) (dirPath : List String)
    (entries : List (String × FsEntry))
    (fileSet : List (List String)) (fileList : List FileRec) :
    List (List String) × List FileRec :=
  match entries with
  | [] => (fileSet, fileList)
  | (name, e) :: rest =>
    match e with
    | .dir sub =>
      let r := walkWithPredicate allowed (dirPath ++ [name]) sub fileSet fileList
      walkWithPredicate allowed dirPath rest r.1 r.2
    | .file sz bt mt =>
      if (dirPath ++ [name]) ∉ fileSet ∧
          (match allowed with | none => true | some f => f name) = true then
        walkWithPredicate allowed dirPath rest ((dirPath ++ [name]) :: fileSet)
          (fileList ++ [⟨dirPath ++ [name], sz, bt, mt⟩])
      else
        walkWithPredicate allowed dirPath rest fileSet fileList
    | .other => walkWithPredicate allowed dirPath rest fileSet fileList
termination_by sizeOf entries
decreasing_by all_goals (simp_wf <;> omega)

/-! ### Walker lemmas -/

lemma append_cons_inj {dp : List String} {a b : String} {q r : List String}
    (h : dp ++ a :: q = dp ++ b :: r) : a = b ∧ q = r := by
  simpa using h

/-- Every file path of a tree extends the root path by the name of one
of the root's entries. -/
lemma mem_filePaths (dirPath : List String) (entries : List (String × FsEntry)) :
    ∀ p ∈ filePaths dirPath entries,
      ∃ nm q, nm ∈ entries.map Prod.fst ∧ p = dirPath ++ nm :: q := by
  induction dirPath, entries using filePaths.induct with
  | case1 dirPath => simp [filePaths]
  | case2 dirPath name sub rest ih1 ih2 =>
    intro p hp
    rw [filePaths] at hp
    rcases List.mem_append.1 hp with h | h
    · obtain ⟨nm, q, _, hpe⟩ := ih1 p h
      exact ⟨name, nm :: q, by simp, by simpa using hpe⟩
    · obtain ⟨nm, q, hnm, hpe⟩ := ih2 p h
      exact ⟨nm, q, by simp [hnm], hpe⟩
  | case3 dirPath name sz bt mt rest ih =>
    intro p hp
    rw [filePaths] at hp
    rcases List.mem_cons.1 hp with h | h
    · exact ⟨name, [], by simp, by simpa using h⟩
    · obtain ⟨nm, q, hnm, hpe⟩ := ih p h
      exact ⟨nm, q, by simp [hnm], hpe⟩
  | case4 dirPath name rest ih =>
    intro p hp
    rw [filePaths] at hp
    obtain ⟨nm, q, hnm, hpe⟩ := ih p hp
    exact ⟨nm, q, by simp [hnm], hpe⟩

/-- Every directory path of a tree extends the root path by the name of
one of the root's entries. -/
lemma mem_dirPaths (dirPath : List String) (entries : List (String × FsEntry)) :
    ∀ p ∈ dirPaths dirPath entries,
      ∃ nm q, nm ∈ entries.map Prod.fst ∧ p = dirPath ++ nm :: q := by
  induction dirPath, entries using dirPaths.induct with
  | case1 dirPath => simp [dirPaths]
  | case2 dirPath name sub rest ih1 ih2 =>
    intro p hp
    rw [dirPaths] at hp
    rcases List.mem_cons.1 hp with h | h
    · exact ⟨name, [], by simp, by simpa using h⟩
    rcases List.mem_append.1 h with h' | h'
    · obtain ⟨nm, q, _, hpe⟩ := ih1 p h'
      exact ⟨name, nm :: q, by simp, by simpa using hpe⟩
    · obtain ⟨nm, q, hnm, hpe⟩ := ih2 p h'
      exact ⟨nm, q, by simp [hnm], hpe⟩
  | case3 dirPath name sz bt mt rest ih =>
    intro p hp
    rw [dirPaths] at hp
    obtain ⟨nm, q, hnm, hpe⟩ := ih p hp
    exact ⟨nm, q, by simp [hnm], hpe⟩
  | case4 dirPath name rest ih =>
    intro p hp
    rw [dirPaths] at hp
    obtain ⟨nm, q, hnm, hpe⟩ := ih p hp
    exact ⟨nm, q, by simp [hnm], hpe⟩

/-- In a well-formed tree all regular-file paths are pairwise
distinct. -/
lemma nodup_filePaths (dirPath : List String) (entries : List (String × FsEntry)) :
    wellFormed entries = true → (filePaths dirPath entries).Nodup := by
  induction dirPath, entries using filePaths.induct with
  | case1 dirPath => intro _; simp [filePaths]
  | case2 dirPath name sub rest ih1 ih2 =>
    intro hwf
    rw [wellFormed] at hwf
    simp only [Bool.and_eq_true, List.all_eq_true, decide_eq_true_eq] at hwf
    obtain ⟨⟨hnames, hsub⟩, hrest⟩ := hwf
    rw [filePaths, List.nodup_append]
    refine ⟨ih1 hsub, ih2 hrest, ?_⟩
    intro p hpA hpB
    obtain ⟨nm1, q1, _, hp1⟩ := mem_filePaths _ _ p hpA
    obtain ⟨nm2, q2, hnm2, hp2⟩ := mem_filePaths _ _ p hpB
    simp only [List.append_assoc, List.singleton_append] at hp1
    rw [hp1] at hp2
    have hne : name = nm2 := (append_cons_inj hp2).1
    obtain ⟨e2, he2, hfst⟩ := List.mem_map.1 hnm2
    exact hnames e2 he2 (hne.trans hfst.symm)
  | case3 dirPath name sz bt mt rest ih =>
    intro hwf
    rw [wellFormed] at hwf
    simp only [Bool.and_eq_true, List.all_eq_true, decide_eq_true_eq] at hwf
    obtain ⟨hnames, hrest⟩ := hwf
    rw [filePaths, List.nodup_cons]
    refine ⟨?_, ih hrest⟩
    intro hmem
    obtain ⟨nm2, q2, hnm2, hp2⟩ := mem_filePaths _ _ _ hmem
    have hne : name = nm2 := (append_cons_inj hp2).1
    obtain ⟨e2, he2, hfst⟩ := List.mem_map.1 hnm2
    exact hnames e2 he2 (hne.trans hfst.symm)
  | case4 dirPath name rest ih =>
    intro hwf
    rw [wellFormed] at hwf
    simp only [Bool.and_eq_true, List.all_eq_true, decide_eq_true_eq] at hwf
    rw [filePaths]
    exact ih hwf.2

/-- In a well-formed tree no regular-file path is also a directory
path. -/
lemma filePaths_disjoint_dirPaths (dirPath : List String)
    (entries : List (String × FsEntry)) :
    wellFormed entries = true →
    ∀ p ∈ filePaths dirPath entries, p ∉ dirPaths dirPath entries := by
  induction dirPath, entries using filePaths.induct with
  | case1 dirPath => intro _; simp [filePaths]
  | case2 dirPath name sub rest ih1 ih2 =>
    intro hwf
    rw [wellFormed] at hwf
    simp only [Bool.and_eq_true, List.all_eq_true, decide_eq_true_eq] at hwf
    obtain ⟨⟨hnames, hsub⟩, hrest⟩ := hwf
    intro p hp hpd
    rw [filePaths] at hp
    rw [dirPaths] at hpd
    rcases List.mem_append.1 hp with hA | hB
    · obtain ⟨nm1, q1, _, hp1⟩ := mem_filePaths _ _ p hA
      simp only [List.append_assoc, List.singleton_append] at hp1
      rcases List.mem_cons.1 hpd with hroot | hsubd
      · rw [hroot] at hp1
        simp at hp1
      rcases List.mem_append.1 hsubd with hdA | hdB
      · exact ih1 hsub p hA hdA
      · obtain ⟨nm2, q2, hnm2, hp2⟩ := mem_dirPaths _ _ p hdB
        rw [hp1] at hp2
        have hne : name = nm2 := (append_cons_inj hp2).1
        obtain ⟨e2, he2, hfst⟩ := List.mem_map.1 hnm2
        exact hnames e2 he2 (hne.trans hfst.symm)
    · obtain ⟨nm1, q1, hnm1, hp1⟩ := mem_filePaths _ _ p hB
      obtain ⟨e1, he1, hfst1⟩ := List.mem_map.1 hnm1
      rcases List.mem_cons.1 hpd with hroot | hsubd
      · rw [hroot] at hp1
        have hne : name = nm1 := (append_cons_inj hp1).1
        exact hnames e1 he1 (hne.trans hfst1.symm)
      rcases List.mem_append.1 hsubd with hdA | hdB
      · obtain ⟨nm2, q2, _, hp2⟩ := mem_dirPaths _ _ p hdA
        simp only [List.append_assoc, List.singleton_append] at hp2
        rw [hp1] at hp2
        have hne : nm1 = name := (append_cons_inj hp2).1
        exact hnames e1 he1 (hne.symm.trans hfst1.symm)
      · exact ih2 hrest p hB hdB
  | case3 dirPath name sz bt mt rest ih =>
    intro hwf
    rw [wellFormed] at hwf
    simp only [Bool.and_eq_true, List.all_eq_true, decide_eq_true_eq] at hwf
    obtain ⟨hnames, hrest⟩ := hwf
    intro p hp hpd
    rw [filePaths] at hp
    rw [dirPaths] at hpd
    rcases List.mem_cons.1 hp with hhead | htail
    · obtain ⟨nm2, q2, hnm2, hp2⟩ := mem_dirPaths _ _ p hpd
      rw [hhead] at hp2
      have hne : name = nm2 := (append_cons_inj hp2).1
      obtain ⟨e2, he2, hfst⟩ := List.mem_map.1 hnm2
      exact hnames e2 he2 (hne.trans hfst.symm)
    · exact ih hrest p htail hpd
  | case4 dirPath name rest ih =>
    intro hwf
    rw [wellFormed] at hwf
    simp only [Bool.and_eq_true, List.all_eq_true, decide_eq_true_eq] at hwf
    intro p hp hpd
    rw [filePaths] at hp
    rw [dirPaths] at hpd
    exact ih hwf.2 p hp hpd

/-- The paths of the traversal-order records are precisely the
regular-file paths of the tree. -/
lemma fileRecords_map_path (dirPath : List String)
    (entries : List (String × FsEntry)) :
    (fileRecords dirPath entries).map FileRec.path = filePaths dirPath entries := by
  induction dirPath, entries using fileRecords.induct with
  | case1 dirPath => simp [fileRecords, filePaths]
  | case2 dirPath name sub rest ih1 ih2 =>
    rw [fileRecords, filePaths]
    simp [ih1, ih2]
  | case3 dirPath name sz bt mt rest ih =>
    rw [fileRecords, filePaths]
    simp [ih]
  | case4 dirPath name rest ih =>
    rw [fileRecords, filePaths]
    exact ih

/-- Characterization of the walker on a tree whose file paths are
pairwise distinct and disjoint from the incoming `fileSet`: it returns
the file paths (newest first) prepended to the set, and the records of
all files appended to the incoming list. -/
lemma walk_spec (dirPath : List String) (entries : List (String × FsEntry))
    (fileSet : List (List String)) (fileList : List FileRec) :
    (filePaths dirPath entries).Nodup →
    (∀ p ∈ filePaths dirPath entries, p ∉ fileSet) →
    recursivelyAddDirectoryContents dirPath entries fileSet fileList =
      ((filePaths dirPath entries).reverse ++ fileSet,
       fileList ++ fileRecords dirPath entries) := by
  induction dirPath, entries, fileSet, fileList
    using recursivelyAddDirectoryContents.induct with
  | case1 dirPath fileSet fileList =>
    intro _ _
    simp [recursivelyAddDirectoryContents, filePaths, fileRecords]
  | case2 dirPath fileSet fileList name rest sub r ih1 ih2 =>
    intro hnd hdisj
    rw [filePaths] at hnd hdisj
    rw [List.nodup_append] at hnd
    obtain ⟨hndA, hndB, hdisjAB⟩ := hnd
    have hdisjA : ∀ p ∈ filePaths (dirPath ++ [name]) sub, p ∉ fileSet :=
      fun p hp => hdisj p (List.mem_append.2 (Or.inl hp))
    have hdisjB : ∀ p ∈ filePaths dirPath rest, p ∉ fileSet :=
      fun p hp => hdisj p (List.mem_append.2 (Or.inr hp))
    have hr : recursivelyAddDirectoryContents (dirPath ++ [name]) sub fileSet fileList
        = ((filePaths (dirPath ++ [name]) sub).reverse ++ fileSet,
           fileList ++ fileRecords (dirPath ++ [name]) sub) := ih1 hndA hdisjA
    have hr2 : r = ((filePaths (dirPath ++ [name]) sub).reverse ++ fileSet,
        fileList ++ fileRecords (dirPath ++ [name]) sub) := hr
    rw [hr2] at ih2
    rw [recursivelyAddDirectoryContents, hr]
    rw [ih2 hndB ?_]
    · rw [filePaths, fileRecords]
      simp [List.append_assoc]
    · intro p hp
      show p ∉ (filePaths (dirPath ++ [name]) sub).reverse ++ fileSet
      simp only [List.mem_append, List.mem_reverse, not_or]
      exact ⟨fun hmem => hdisjAB hmem hp, hdisjB p hp⟩
  | case3 dirPath fileSet fileList name rest sz bt mt hmem ih =>
    intro hnd hdisj
    exact absurd hmem (hdisj (dirPath ++ [name]) (by rw [filePaths]; exact List.mem_cons_self _ _))
  | case4 dirPath fileSet fileList name rest sz bt mt hmem ih =>
    intro hnd hdisj
    rw [filePaths] at hnd hdisj
    rw [List.nodup_cons] at hnd
    obtain ⟨hhead, hndB⟩ := hnd
    rw [recursivelyAddDirectoryContents, if_neg hmem]
    rw [ih ?_ ?_]
    · rw [filePaths, fileRecords]
      simp
    · exact hndB
    · intro p hp
      simp only [List.mem_cons, not_or]
      exact ⟨fun he => hhead (he ▸ hp), hdisj p (List.mem_cons_of_mem _ hp)⟩
  | case5 dirPath fileSet fileList name rest ih =>
    intro hnd hdisj
    rw [filePaths] at hnd hdisj
    rw [recursivelyAddDirectoryContents]
    rw [ih hnd hdisj]
    rw [filePaths, fileRecords]

/-- Processing a concatenation of entry lists threads the accumulators
through the first list and continues with the second. -/
lemma walk_append (dirPath : List String) (xs : List (String × FsEntry))
    (fileSet : List (List String)) (fileList : List FileRec) :
    ∀ ys, recursivelyAddDirectoryContents dirPath (xs ++ ys) fileSet fileList =
      recursivelyAddDirectoryContents dirPath ys
        (recursivelyAddDirectoryContents dirPath xs fileSet fileList).1
        (recursivelyAddDirectoryContents dirPath xs fileSet fileList).2 := by
  induction dirPath, xs, fileSet, fileList
    using recursivelyAddDirectoryContents.induct with
  | case1 dirPath fileSet fileList =>
    intro ys
    simp [recursivelyAddDirectoryContents]
  | case2 dirPath fileSet fileList name rest sub r ih1 ih2 =>
    intro ys
    rw [List.cons_append, recursivelyAddDirectoryContents, ih2 ys,
      recursivelyAddDirectoryContents]
  | case3 dirPath fileSet fileList name rest sz bt mt hmem ih =>
    intro ys
    rw [List.cons_append, recursivelyAddDirectoryContents, if_pos hmem, ih ys,
      recursivelyAddDirectoryContents, if_pos hmem]
  | case4 dirPath fileSet fileList name rest sz bt mt hmem ih =>
    intro ys
    rw [List.cons_append, recursivelyAddDirectoryContents, if_neg hmem, ih ys,
      recursivelyAddDirectoryContents, if_neg hmem]
  | case5 dirPath fileSet fileList name rest ih =>
    intro ys
    rw [List.cons_append, recursivelyAddDirectoryContents, ih ys,
      recursivelyAddDirectoryContents]

/-! ### Claim theorems about the Walker -/

/-- On a tree with pairwise-distinct file paths and a fresh context, the
walker's result list is exactly the traversal-order records. -/
lemma walk_default_records (dirPath : List String)
    (entries : List (String × FsEntry)) (hwf : wellFormed entries = true) :
    (recursivelyAddDirectoryContents dirPath entries [] []).2
      = fileRecords dirPath entries := by
  rw [walk_spec dirPath entries [] [] (nodup_filePaths dirPath entries hwf) (by simp)]
  simp

/-- C1: for every directory tree, the sequence returned by
`recursivelyAddDirectoryContents` contains no two records with the same
path, and no record whose path is a directory path of the tree:
directories are only recursed into, never emitted. -/
theorem walker_unique_paths_no_dir_records (dirPath : List String)
    (entries : List (String × FsEntry)) (hwf : wellFormed entries = true) :
    (((recursivelyAddDirectoryContents dirPath entries [] []).2).map FileRec.path).Nodup ∧
    ∀ r ∈ (recursivelyAddDirectoryContents dirPath entries [] []).2,
      r.path ∉ dirPaths dirPath entries := by
  rw [walk_default_records dirPath entries hwf, fileRecords_map_path]
  refine ⟨nodup_filePaths dirPath entries hwf, ?_⟩
  intro r hr hmem
  have hpath : r.path ∈ filePaths dirPath entries := by
    rw [← fileRecords_map_path dirPath entries]
    exact List.mem_map_of_mem _ hr
  exact filePaths_disjoint_dirPaths dirPath entries hwf r.path hpath hmem

/-- A small sample tree: a subdirectory holding one file, a top-level
file, and a socket-like entry. -/
def sampleTree : List (String × FsEntry) :=
  [("a", .dir [("x.txt", .file 5 "b" "m")]),
   ("y.mp4", .file 7 "b2" "m2"),
   ("s", .other)]

theorem walker_unique_paths_no_dir_records_witness :
    wellFormed sampleTree = true ∧
    ((((recursivelyAddDirectoryContents ["r"] sampleTree [] []).2).map FileRec.path).Nodup ∧
     ∀ r ∈ (recursivelyAddDirectoryContents ["r"] sampleTree [] []).2,
       r.path ∉ dirPaths ["r"] sampleTree) :=
  ⟨by simp [sampleTree, wellFormed],
   walker_unique_paths_no_dir_records ["r"] sampleTree (by simp [sampleTree, wellFormed])⟩

/-- C2: on every finite tree whose file paths are pairwise distinct
(no cyclically duplicated paths), the walker — a total function here,
so it terminates on every tree regardless of nesting depth — returns
exactly one record per reachable regular-file path. -/
theorem walker_terminates_exact_count (dirPath : List String)
    (entries : List (String × FsEntry)) (hwf : wellFormed entries = true) :
    (recursivelyAddDirectoryContents dirPath entries [] []).2.length
      = (filePaths dirPath entries).length := by
  rw [walk_default_records dirPath entries hwf,
    ← fileRecords_map_path dirPath entries, List.length_map]

theorem walker_terminates_exact_count_witness :
    wellFormed sampleTree = true ∧
    (recursivelyAddDirectoryContents ["r"] sampleTree [] []).2.length
      = (filePaths ["r"] sampleTree).length :=
  ⟨by simp [sampleTree, wellFormed],
   walker_terminates_exact_count ["r"] sampleTree (by simp [sampleTree, wellFormed])⟩

/-- C10: a directory entry that is neither a regular file nor a
directory is silently skipped: the walk of a listing containing it
returns exactly the state and records of the walk without it (so it is
not recursed into, not added to the visited set, not emitted, and does
not fail the walk, the function being total). -/
theorem walker_skips_special_entries (dirPath : List String)
    (pre post : List (String × FsEntry)) (name : String)
    (fileSet : List (List String)) (fileList : List FileRec) :
    recursivelyAddDirectoryContents dirPath (pre ++ (name, FsEntry.other) :: post)
        fileSet fileList
      = recursivelyAddDirectoryContents dirPath (pre ++ post) fileSet fileList := by
  rw [walk_append dirPath pre fileSet fileList ((name, FsEntry.other) :: post),
    walk_append dirPath pre fileSet fileList post,
    recursivelyAddDirectoryContents]

/-- C3 counterexample: the walker has no allow-list parameter to plug
in; on a tree holding one `.txt` file it emits that file, while the
spec's predicate-supplied walker with a rejecting predicate emits
nothing, so no supplied predicate restricts the source walker's
output. -/
theorem walker_filter_not_pluggable_counterexample :
    (recursivelyAddDirectoryContents [] [("a.txt", FsEntry.file 1 "b" "m")] [] []).2
      = [⟨["a.txt"], 1, "b", "m"⟩] ∧
    (walkWithPredicate (some fun _ => false) [] [("a.txt", FsEntry.file 1 "b" "m")] [] []).2
      = [] := by
  constructor
  · simp [recursivelyAddDirectoryContents]
  · simp [walkWithPredicate]

/-- C3 amended: the walker has no filter parameter — the extension
condition is hardcoded in the source and commented out — so every
encountered file qualifies: the walker coincides everywhere with the
spec's walker with the predicate absent. -/
theorem walker_equals_predicate_absent_walk (dirPath : List String)
    (entries : List (String × FsEntry))
    (fileSet : List (List String)) (fileList : List FileRec) :
    recursivelyAddDirectoryContents dirPath entries fileSet fileList
      = walkWithPredicate none dirPath entries fileSet fileList := by
  induction dirPath, entries, fileSet, fileList
    using recursivelyAddDirectoryContents.induct with
  | case1 dirPath fileSet fileList =>
    rw [recursivelyAddDirectoryContents, walkWithPredicate]
  | case2 dirPath fileSet fileList name rest sub r ih1 ih2 =>
    rw [recursivelyAddDirectoryContents, walkWithPredicate, ← ih1]
    exact ih2
  | case3 dirPath fileSet fileList name rest sz bt mt hmem ih =>
    rw [recursivelyAddDirectoryContents, if_pos hmem, walkWithPredicate,
      if_neg (by simp [hmem]), ih]
  | case4 dirPath fileSet fileList name rest sz bt mt hmem ih =>
    rw [recursivelyAddDirectoryContents, if_neg hmem, walkWithPredicate,
      if_pos ⟨hmem, rfl⟩, ih]
  | case5 dirPath fileSet fileList name rest ih =>
    rw [recursivelyAddDirectoryContents, walkWithPredicate, ih]

/-! ### Server model: `src/routes/index.ts`

The filesystem of the route handlers is a finite map from resolved
absolute paths (lists of segments) to nodes, represented as an
association list whose order is the raw directory-enumeration order.
Each handler receives already-resolved paths (`path.resolve`) and a
fixed filesystem state for the request, and returns its JSON response
together with the resulting filesystem state.  `localeCompare` is
parameterized as an integer-valued comparison `cmp` on names. -/

/-- A filesystem node: a regular file with its content, or a
directory. -/
inductive Node : Type where
  | file (content : String) : Node
  | dir : Node
deriving DecidableEq, Repr

/-- `stats.isDirectory()`. -/
def Node.isDirectory : Node → Bool
  | .dir => true
  | .file _ => false

/-- The filesystem state: resolved path ↦ node, in enumeration order. -/
abbrev Fs := List (List String × Node)

/-- `fs.stat`: the node at a path, or `none` (ENOENT). -/
def lookup : Fs → List String → Option Node
  | [], _ => none
  | e :: rest, p => if e.1 = p then some e.2 else lookup rest p

/-- Store a node at a path: replace the first binding of the path, or
append a new binding. -/
def setNode : Fs → List String → Node → Fs
  | [], p, n => [(p, n)]
  | e :: rest, p, n => if e.1 = p then (p, n) :: rest else e :: setNode rest p n

/-- `fs.readdir(p, withFileTypes)`: the immediate children of `p`, as
(name, node) pairs in enumeration order. -/
def childrenOf (fs : Fs) (p : List String) : List (String × Node) :=
  fs.filterMap fun e =>
    if e.1.take p.length = p then
      match e.1.drop p.length with
      | [x] => some (x, e.2)
      | _ => none
    else none

/-- The `ChonkyFile` record of the listing response. -/
structure ChonkyFile : Type where
  id : List String
  name : String
  isDir : Bool
  size : Option Nat
deriving DecidableEq, Repr

/-- An HTTP response: the status plus the JSON fields the claims
inspect. -/
structure Resp : Type where
  status : Nat
  error : Option String := none
  isDir : Option Bool := none
  size : Option Nat := none
  files : List ChonkyFile := []
deriving DecidableEq, Repr

/-- The comparator of `files.sort((a, b) => ...)`: directories first,
then `a.name.localeCompare(b.name)` (the locale comparison is the
parameter `cmp`). -/
def localeComparator (cmp : String → String → Int) (a b : ChonkyFile) : Int :=
  if a.isDir && !b.isDir then -1
  else if !a.isDir && b.isDir then 1
  else cmp a.name b.name

/-- The "a sorts no later than b" relation induced by the
comparator. -/
def sortLe (cmp : String → String → Int) (a b : ChonkyFile) : Prop :=
  localeComparator cmp a b ≤ 0

instance (cmp : String → String → Int) : DecidableRel (sortLe cmp) :=
  fun a b => inferInstanceAs (Decidable (localeComparator cmp a b ≤ 0))

/-- `GET /files`: stat the resolved path — 404 if missing, 400 if not a
directory — else build one record per immediate child and sort with the
comparator (a stable comparison sort models `Array.prototype.sort`). -/
def getFiles (cmp : String → String → Int) (fs : Fs) (p : List String) : Resp :=
  match lookup fs p with
  | none => { status := 404, error := some "Directory not found" }
  | some (.file _) => { status := 400, error := some "Path is not a directory" }
  | some .dir =>
    { status := 200,
      files := List.insertionSort (sortLe cmp)
        ((childrenOf fs p).map fun e =>
          { id := p ++ [e.1], name := e.1, isDir := e.2.isDirectory,
            size := match e.2 with | .file c => some c.length | .dir => none }) }

/-- `fs.writeFile(p, c)`: EISDIR on a directory, overwrite an existing
file, create the file when the parent directory exists, ENOENT
otherwise. -/
def writeFileFs (fs : Fs) (p : List String) (c : String) : Except String Fs :=
  match lookup fs p with
  | some .dir => .error "EISDIR"
  | some (.file _) => .ok (setNode fs p (.file c))
  | none =>
    if p ≠ [] ∧ lookup fs p.dropLast = some .dir then .ok (setNode fs p (.file c))
    else .error "ENOENT"

/-- The chain of nonempty prefixes of a path, shortest first: the
directories `mkdir -p` visits. -/
def ancestry (p : List String) : List (List String) :=
  (List.range p.length).map fun i => p.take (i + 1)

/-- `fs.mkdir(p, recursive)` along a prefix chain: an existing
directory is kept, a file in the chain is an error (EEXIST at the
target, ENOTDIR at an ancestor), a missing link is created. -/
def mkdirRecAux : Fs → List (List String) → Except String Fs
  | fs, [] => .ok fs
  | fs, q :: rest =>
    match lookup fs q with
    | some .dir => mkdirRecAux fs rest
    | some (.file _) => .error (if rest = [] then "EEXIST" else "ENOTDIR")
    | none => mkdirRecAux (setNode fs q .dir) rest

/-- `fs.mkdir(resolvedPath, recursive := true)`. -/
def mkdirRecursive (fs : Fs) (p : List String) : Except String Fs :=
  mkdirRecAux fs (ancestry p)

/-- `POST /files`: 400 when the path is absent; `mkdir` recursive for
`isDir`, else `writeFile`; EEXIST maps to 409, other failures rethrow
(500); on success stat the path and answer 201 with its record. -/
def postFiles (fs : Fs) (filePath : Option (List String)) (isDir : Bool)
    (content : String) : Resp × Fs :=
  match filePath with
  | none => ({ status := 400, error := some "Path is required" }, fs)
  | some p =>
    match (if isDir then mkdirRecursive fs p else writeFileFs fs p content) with
    | .error e =>
      if e = "EEXIST" then
        ({ status := 409, error := some "File or directory already exists" }, fs)
      else ({ status := 500, error := some e }, fs)
    | .ok fs' =>
      match lookup fs' p with
      | some n =>
        ({ status := 201, isDir := some n.isDirectory,
           size := match n with | .file c => some c.length | .dir => none }, fs')
      | none => ({ status := 500, error := some "ENOENT" }, fs')

/-- `PUT /file`: 400 when path or content is absent; stat the resolved
path — 404 if missing, 400 if a directory — else overwrite the file's
content and answer 200 with the new record. -/
def putFile (fs : Fs) (filePath : Option (List String))
    (content : Option String) : Resp × Fs :=
  match filePath with
  | none => ({ status := 400, error := some "Path is required" }, fs)
  | some p =>
    match content with
    | none => ({ status := 400, error := some "Content is required" }, fs)
    | some c =>
      match lookup fs p with
      | none => ({ status := 404, error := some "File not found" }, fs)
      | some .dir =>
        ({ status := 400, error := some "Cannot write content to a directory" }, fs)
      | some (.file _) =>
        match writeFileFs fs p c with
        | .ok fs' =>
          ({ status := 200, isDir := some false, size := some c.length }, fs')
        | .error e => ({ status := 500, error := some e }, fs)

/-! ### Server lemmas -/

lemma lookup_setNode_self (fs : Fs) (p : List String) (n : Node) :
    lookup (setNode fs p n) p = some n := by
  induction fs with
  | nil => simp [setNode, lookup]
  | cons e rest ih =>
    by_cases h : e.1 = p
    · simp [setNode, h, lookup]
    · simp [setNode, h, lookup, ih]

lemma lookup_setNode_ne (fs : Fs) (p q : List String) (n : Node) (h : q ≠ p) :
    lookup (setNode fs p n) q = lookup fs q := by
  have hpq : ¬ p = q := fun he => h he.symm
  induction fs with
  | nil => simp [setNode, lookup, hpq]
  | cons e rest ih =>
    obtain ⟨k, v⟩ := e
    by_cases he : k = p
    · subst he
      simp [setNode, lookup, hpq]
    · simp [setNode, he, lookup, ih]

lemma mkdirRecAux_all_dirs (fs : Fs) (qs : List (List String))
    (h : ∀ q ∈ qs, lookup fs q = some .dir) : mkdirRecAux fs qs = .ok fs := by
  induction qs with
  | nil => rfl
  | cons q rest ih =>
    rw [mkdirRecAux, h q (List.mem_cons_self q rest)]
    exact ih fun q' hq' => h q' (List.mem_cons_of_mem q hq')

lemma self_mem_ancestry (p : List String) (h : p ≠ []) : p ∈ ancestry p := by
  have hpos : 0 < p.length := List.length_pos.2 h
  refine List.mem_map.2 ⟨p.length - 1, List.mem_range.2 (by omega), ?_⟩
  have heq : p.length - 1 + 1 = p.length := by omega
  rw [heq, List.take_length]

/-! ### Claim theorems about the route handlers -/

/-- C4: for every directory, the `GET /files` result is sorted with all
directory records before all file records and, within each of the two
groups, ascending under the (locale-aware) name comparison, provided
that comparison is total and transitive. -/
theorem getFiles_sorted (cmp : String → String → Int) (fs : Fs) (p : List String)
    (htot : ∀ a b, cmp a b ≤ 0 ∨ cmp b a ≤ 0)
    (htrans : ∀ a b c, cmp a b ≤ 0 → cmp b c ≤ 0 → cmp a c ≤ 0)
    (hdir : lookup fs p = some .dir) :
    (getFiles cmp fs p).files.Pairwise fun a b =>
      (a.isDir = true ∧ b.isDir = false) ∨
      (a.isDir = b.isDir ∧ cmp a.name b.name ≤ 0) := by
  have htotal : IsTotal ChonkyFile (sortLe cmp) := by
    constructor
    intro a b
    unfold sortLe localeComparator
    cases ha : a.isDir <;> cases hb : b.isDir <;> simp [ha, hb]
    · exact htot a.name b.name
    · exact htot a.name b.name
  have htr : IsTrans ChonkyFile (sortLe cmp) := by
    constructor
    intro a b c hab hbc
    unfold sortLe localeComparator at hab hbc ⊢
    cases ha : a.isDir <;> cases hb : b.isDir <;> cases hc : c.isDir <;>
      simp [ha, hb, hc] at hab hbc ⊢
    · exact htrans a.name b.name c.name hab hbc
    · exact htrans a.name b.name c.name hab hbc
  have hfiles : (getFiles cmp fs p).files = List.insertionSort (sortLe cmp)
      ((childrenOf fs p).map fun e =>
        { id := p ++ [e.1], name := e.1, isDir := e.2.isDirectory,
          size := match e.2 with | .file c => some c.length | .dir => none }) := by
    simp [getFiles, hdir]
  rw [hfiles]
  refine List.Pairwise.imp ?_ (List.sorted_insertionSort (sortLe cmp) _)
  intro a b hab
  unfold sortLe localeComparator at hab
  cases ha : a.isDir <;> cases hb : b.isDir <;> simp [ha, hb] at hab ⊢ <;> exact hab

/-- A fixed comparison making every pair of names compare equal. -/
def zeroCmp : String → String → Int := fun _ _ => 0

/-- A sample server filesystem: a root directory with a subdirectory
and two files, one of the files living in the subdirectory. -/
def sampleFs : Fs :=
  [([], .dir), (["d"], .dir), (["b.txt"], .file "hello"), (["d", "c.txt"], .file "x")]

theorem getFiles_sorted_witness :
    lookup sampleFs [] = some Node.dir ∧
    (getFiles zeroCmp sampleFs []).files.Pairwise fun a b =>
      (a.isDir = true ∧ b.isDir = false) ∨
      (a.isDir = b.isDir ∧ zeroCmp a.name b.name ≤ 0) :=
  ⟨by decide, getFiles_sorted zeroCmp sampleFs []
    (fun _ _ => Or.inl (by simp [zeroCmp])) (fun _ _ _ _ _ => by simp [zeroCmp])
    (by decide)⟩

/-- C5: for every directory, the `GET /files` result has exactly one
record per immediate child of the resolved directory, whose `isDir`
flag is the child's type as the request's filesystem state reports it
(the state a stat during the request observes). -/
theorem getFiles_exact_children (cmp : String → String → Int) (fs : Fs)
    (p : List String) (hdir : lookup fs p = some .dir) :
    ((getFiles cmp fs p).files.map fun r => (r.id, r.name, r.isDir)).Perm
      ((childrenOf fs p).map fun e => (p ++ [e.1], e.1, e.2.isDirectory)) := by
  have hfiles : (getFiles cmp fs p).files = List.insertionSort (sortLe cmp)
      ((childrenOf fs p).map fun e =>
        { id := p ++ [e.1], name := e.1, isDir := e.2.isDirectory,
          size := match e.2 with | .file c => some c.length | .dir => none }) := by
    simp [getFiles, hdir]
  rw [hfiles]
  refine ((List.perm_insertionSort (sortLe cmp) _).map _).trans ?_
  rw [List.map_map]
  rfl

theorem getFiles_exact_children_witness :
    lookup sampleFs [] = some Node.dir ∧
    ((getFiles zeroCmp sampleFs []).files.map fun r => (r.id, r.name, r.isDir)).Perm
      ((childrenOf sampleFs []).map fun e => ([] ++ [e.1], e.1, e.2.isDirectory)) :=
  ⟨by decide, getFiles_exact_children zeroCmp sampleFs [] (by decide)⟩

/-- C6: `GET /files` answers 400 when the resolved path exists as a
file and 404 when it does not exist. -/
theorem getFiles_error_codes (cmp : String → String → Int) (fs : Fs)
    (p : List String) :
    (∀ c, lookup fs p = some (.file c) → (getFiles cmp fs p).status = 400) ∧
    (lookup fs p = none → (getFiles cmp fs p).status = 404) := by
  constructor
  · intro c h
    simp [getFiles, h]
  · intro h
    simp [getFiles, h]

theorem getFiles_error_codes_witness :
    (getFiles zeroCmp sampleFs ["b.txt"]).status = 400 ∧
    (getFiles zeroCmp sampleFs ["nope"]).status = 404 :=
  ⟨(getFiles_error_codes zeroCmp sampleFs ["b.txt"]).1 "hello" (by decide),
   (getFiles_error_codes zeroCmp sampleFs ["nope"]).2 (by decide)⟩

/-- C7: `PUT /file` on a missing path answers 404 and leaves the
filesystem unchanged; moreover a `PUT /file` request never creates a
path that did not exist before. -/
theorem putFile_update_only (fs : Fs) (p : List String) (c : String) :
    (lookup fs p = none →
      (putFile fs (some p) (some c)).1.status = 404 ∧
      (putFile fs (some p) (some c)).2 = fs) ∧
    (∀ q, lookup fs q = none → lookup (putFile fs (some p) (some c)).2 q = none) := by
  constructor
  · intro h
    simp [putFile, h]
  · intro q hq
    cases hl : lookup fs p with
    | none => simp [putFile, hl, hq]
    | some n =>
      cases n with
      | dir => simp [putFile, hl, hq]
      | file c0 =>
        have hqp : q ≠ p := fun he => by rw [he, hl] at hq; exact Option.noConfusion hq
        simp [putFile, hl, writeFileFs, lookup_setNode_ne fs p q (.file c) hqp, hq]

theorem putFile_update_only_witness :
    lookup sampleFs ["ghost"] = none ∧
    ((putFile sampleFs (some ["ghost"]) (some "x")).1.status = 404 ∧
     (putFile sampleFs (some ["ghost"]) (some "x")).2 = sampleFs) ∧
    lookup (putFile sampleFs (some ["b.txt"]) (some "x")).2 ["ghost"] = none :=
  ⟨by decide,
   (putFile_update_only sampleFs ["ghost"] "x").1 (by decide),
   (putFile_update_only sampleFs ["b.txt"] "x").2 ["ghost"] (by decide)⟩

/-- C8: `POST /files` with `isDir := true` on a path whose whole prefix
chain already exists as directories answers 201 with `isDir = true` and
leaves the filesystem unchanged, so the same request issued twice in
succession answers 201 both times. -/
theorem postFiles_mkdir_idempotent (fs : Fs) (p : List String) (c : String)
    (hne : p ≠ []) (hdirs : ∀ q ∈ ancestry p, lookup fs q = some .dir) :
    postFiles fs (some p) true c = ({ status := 201, isDir := some true }, fs) ∧
    (postFiles (postFiles fs (some p) true c).2 (some p) true c).1.status = 201 := by
  have hmk : mkdirRecursive fs p = .ok fs :=
    mkdirRecAux_all_dirs fs (ancestry p) hdirs
  have hp : lookup fs p = some .dir := hdirs p (self_mem_ancestry p hne)
  have h1 : postFiles fs (some p) true c = ({ status := 201, isDir := some true }, fs) := by
    simp [postFiles, hmk, hp, Node.isDirectory]
  exact ⟨h1, by rw [h1, h1]⟩

theorem postFiles_mkdir_idempotent_witness :
    ((["d"] : List String) ≠ [] ∧ ∀ q ∈ ancestry ["d"], lookup sampleFs q = some .dir) ∧
    postFiles sampleFs (some ["d"]) true "" = ({ status := 201, isDir := some true }, sampleFs) ∧
    (postFiles (postFiles sampleFs (some ["d"]) true "").2 (some ["d"]) true "").1.status = 201 :=
  ⟨⟨by decide, by decide⟩,
   postFiles_mkdir_idempotent sampleFs ["d"] "" (by decide) (by decide)⟩

/-- C9: `POST /files` with `isDir := false` on a path that already
exists as a file overwrites it unconditionally: 201 (never 409), the
content is replaced, and an immediate identical request answers 201
again. -/
theorem postFiles_file_overwrites (fs : Fs) (p : List String) (c0 c : String)
    (h : lookup fs p = some (.file c0)) :
    (postFiles fs (some p) false c).1.status = 201 ∧
    (postFiles fs (some p) false c).1.status ≠ 409 ∧
    lookup (postFiles fs (some p) false c).2 p = some (.file c) ∧
    (postFiles (postFiles fs (some p) false c).2 (some p) false c).1.status = 201 := by
  have hres : postFiles fs (some p) false c
      = ({ status := 201, isDir := some false, size := some c.length },
         setNode fs p (.file c)) := by
    simp [postFiles, writeFileFs, h, lookup_setNode_self, Node.isDirectory]
  have hres2 : postFiles (setNode fs p (.file c)) (some p) false c
      = ({ status := 201, isDir := some false, size := some c.length },
         setNode (setNode fs p (.file c)) p (.file c)) := by
    simp [postFiles, writeFileFs, lookup_setNode_self, Node.isDirectory]
  rw [hres]
  exact ⟨rfl, by simp, lookup_setNode_self fs p (.file c), by rw [hres2]⟩

theorem postFiles_file_overwrites_witness :
    lookup sampleFs ["b.txt"] = some (.file "hello") ∧
    ((postFiles sampleFs (some ["b.txt"]) false "new").1.status = 201 ∧
     (postFiles sampleFs (some ["b.txt"]) false "new").1.status ≠ 409 ∧
     lookup (postFiles sampleFs (some ["b.txt"]) false "new").2 ["b.txt"]
       = some (.file "new") ∧
     (postFiles (postFiles sampleFs (some ["b.txt"]) false "new").2
        (some ["b.txt"]) false "new").1.status = 201) :=
  ⟨by decide, postFiles_file_overwrites sampleFs ["b.txt"] "hello" "new" (by decide)⟩

end Chonky
